import Mathlib

/-!
Shallow embedding of gitfeet (src/main.rs): the document registry
(`BlogPosts`, a `BTreeMap<&str, BlogPost>` modelled as a key-sorted
association list), the commit-history walker (`walk`), the selector
(`get_n_latest`), and feed-entry construction (`mkEntry`).

`MaybeUninit` fields of `BlogPost` (`latest`, `author`) are modelled as
`Option`: `none` is the uninitialized state, and a read of an
uninitialized field (undefined behaviour / panic in the source) is
modelled as a failing `Option` bind.
-/

set_option autoImplicit false

namespace Gitfeet

/-- `git::Time`: seconds since epoch plus a UTC offset in minutes. -/
structure Time where
  seconds : Int
  offsetMinutes : Int
deriving DecidableEq, Repr

/-- `struct BlogPost`: `initial` is `Option<Time>`; `latest` and `author`
are `MaybeUninit` in the source, modelled as `Option` with `none` for the
uninitialized state. The author is a `(name, email)` pair of nullable
strings, as produced from a git signature. -/
structure BlogPost where
  path : String
  initial : Option Time
  latest : Option Time
  author : Option (Option String × Option String)
deriving DecidableEq, Repr

/-- `struct BlogPosts(BTreeMap<&str, BlogPost>)`: modelled as an
association list kept in ascending key order (BTreeMap iteration order). -/
abbrev BlogPosts := List (String × BlogPost)

/-- The record created by `insert_uninit`: no fields initialized. -/
def freshPost (path : String) : BlogPost :=
  { path := path, initial := none, latest := none, author := none }

/-- The key order of the `BTreeMap<&str, _>`: byte-lexicographic
comparison, stated as lexicographic order on the character data (UTF-8
byte order and codepoint order coincide). -/
def strLt (a b : String) : Bool := decide (a.data < b.data)

/-- `BlogPosts::insert_uninit`: `BTreeMap::insert` of a fresh
uninitialized record, keeping keys in ascending order and replacing an
existing entry with the same key. -/
def insert_uninit : BlogPosts → String → BlogPosts
  | [], path => [(path, freshPost path)]
  | (k, v) :: rest, path =>
    if strLt path k then (path, freshPost path) :: (k, v) :: rest
    else if path = k then (path, freshPost path) :: rest
    else (k, v) :: insert_uninit rest path

/-- `BlogPosts::get_mut`: `BTreeMap::get_mut`, lookup by exact key. -/
def get_mut : BlogPosts → String → Option BlogPost
  | [], _ => none
  | (k, v) :: rest, path => if k = path then some v else get_mut rest path

/-- `BlogPosts::get_n_latest`: `self.0.iter().rev().take(n)` mapped to the
values — the last `n` entries of the map in reverse (descending-key)
iteration order. -/
def get_n_latest (m : BlogPosts) (n : Nat) : List BlogPost :=
  (m.reverse.take n).map (fun kv => kv.2)

/-- A commit as the walker reads it: parent count, commit time, author
signature (nullable name and email), and the new-side paths of the deltas
of `diff_tree_to_tree(parent.tree, commit.tree)`. -/
structure Commit where
  parentCount : Nat
  time : Time
  authorName : Option String
  authorEmail : Option String
  deltas : List String
deriving DecidableEq, Repr

/-- The body of the delta loop for one matching record:
`initial.get_or_insert(time)` followed by unconditional writes of
`latest` and `author`. -/
def touchPost (c : Commit) (p : BlogPost) : BlogPost :=
  { p with initial := some (p.initial.getD c.time),
           latest := some c.time,
           author := some (c.authorName, c.authorEmail) }

/-- Processing one delta of a commit: mutate the record whose key is the
delta's new-side path, if present (`get_mut` returning `None` leaves the
registry untouched). -/
def applyDelta (c : Commit) : BlogPosts → String → BlogPosts
  | [], _ => []
  | (k, v) :: rest, path =>
    if k = path then (k, touchPost c v) :: applyDelta c rest path
    else (k, v) :: applyDelta c rest path

/-- Processing one commit of the revwalk: commits with exactly one parent
have every delta applied; all other commits (merges, the root) are
skipped. -/
def processCommit (m : BlogPosts) (c : Commit) : BlogPosts :=
  if c.parentCount = 1 then c.deltas.foldl (applyDelta c) m else m

/-- The history walk: fold `processCommit` over the commits in revwalk
order (chronological, oldest first, by `Sort::TIME | Sort::REVERSE`). -/
def walk (m : BlogPosts) (cs : List Commit) : BlogPosts :=
  cs.foldl processCommit m

/-- Seeding the registry: `insert_uninit` for every path of the directory
scan, starting from the empty map. -/
def seed (paths : List String) : BlogPosts :=
  paths.foldl insert_uninit []

/-- A commit qualifies for a path when it has exactly one parent and its
diff reports that path on the new side. -/
def qualifies (path : String) (c : Commit) : Bool :=
  c.parentCount == 1 && c.deltas.contains path

/-- The qualifying commits that touch `path`, in walk order. -/
def touching (cs : List Commit) (path : String) : List Commit :=
  cs.filter (qualifies path)

/-- Repeated touching of one record by a list of commits, in order. -/
def touchFold (p : BlogPost) (cs : List Commit) : BlogPost :=
  cs.foldl (fun q c => touchPost c q) p

/-- A rendered feed entry (`EntryCtx`); timestamp formatting and markdown
rendering are external, so timestamps stay as `Time` and `content` is the
rendered body supplied by the caller. -/
structure EntryCtx where
  id : String
  title : String
  updated : Time
  authorName : String
  authorEmail : String
  content : String
  link : String
  published : Time
deriving DecidableEq, Repr

/-- `Path::file_name` of a path string: the component after the last
separator. -/
def fileName (path : String) : String :=
  (path.splitOn "/").getLastD ""

/-- `Path::file_stem`: the whole file name when it holds no dot or only a
leading dot, otherwise the portion before the final dot. -/
def fileStem (path : String) : String :=
  let name := fileName path
  let parts := name.splitOn "."
  match parts with
  | [] => name
  | [_] => name
  | _ =>
    let before := String.intercalate "." parts.dropLast
    if before = "" then name else before

/-- `file_stem().to_string_lossy().split('.')`: the dot-separated
components of the stem, indexed by the title extraction. -/
def titleComponents (path : String) : List String :=
  (fileStem path).splitOn "."

/-- Building one `EntryCtx` from a selected record. Every `unwrap`, every
read of a `MaybeUninit` field and the panicking `[1]` index are modelled
as `Option` binds; `oid` (blob id of the path in HEAD's tree) and
`content` (rendered markdown of the file) are external inputs. -/
def mkEntry (oid content : String) (p : BlogPost) : Option EntryCtx := do
  let a ← p.author
  let name ← a.1
  let email ← a.2
  let t ← p.latest
  let pub ← p.initial
  let title ← (titleComponents p.path)[1]?
  pure { id := "https://sp1rit.ml/read/" ++ oid
       , title := title
       , updated := t
       , authorName := name
       , authorEmail := email
       , content := content
       , link := "https://sp1rit.ml/read/" ++ oid
       , published := pub }

/-- The `posts.into_iter().map(...).collect()` stage: building all
entries, where any failing entry aborts the whole run. -/
def assembleEntries (oids contents : String → String) : List BlogPost → Option (List EntryCtx)
  | [] => some []
  | p :: rest => do
    let e ← mkEntry (oids p.path) (contents p.path) p
    let es ← assembleEntries oids contents rest
    pure (e :: es)

/-- The initialization invariant of a record: `latest` and `author` are
both uninitialized or both initialized, and a record with `initial` set
has `latest` set. -/
def BlogPost.wf (p : BlogPost) : Prop :=
  (p.latest.isSome ↔ p.author.isSome) ∧ (p.initial.isSome → p.latest.isSome)

instance (p : BlogPost) : Decidable p.wf := by
  unfold BlogPost.wf
  infer_instance

/-- The spec's selector contract, stated from the spec's words (not from
the source): adjacent results are ordered by descending `lastTouched`. -/
def specLatestDescPair (p q : BlogPost) : Prop :=
  match p.latest, q.latest with
  | some s, some t => t.seconds ≤ s.seconds
  | _, _ => True

instance (p q : BlogPost) : Decidable (specLatestDescPair p q) := by
  unfold specLatestDescPair
  cases p.latest <;> cases q.latest <;> infer_instance

/-- The spec's selector contract on a whole result sequence: sorted
descending by `lastTouched`. -/
def specSortedByLatestDesc (l : List BlogPost) : Prop :=
  List.Pairwise specLatestDescPair l

instance (l : List BlogPost) : Decidable (specSortedByLatestDesc l) :=
  List.instDecidablePairwise l

/-! ### Concrete data used to instantiate the theorems -/

/-- A single-parent commit touching `content/01.hello.md`. -/
def exCommitA : Commit :=
  { parentCount := 1, time := ⟨10, 0⟩, authorName := some "ada",
    authorEmail := some "ada@example.org", deltas := ["content/01.hello.md"] }

/-- A later single-parent commit touching `content/01.hello.md` and an
untracked path. -/
def exCommitB : Commit :=
  { parentCount := 1, time := ⟨20, 60⟩, authorName := some "bob",
    authorEmail := some "bob@example.org", deltas := ["content/01.hello.md", "README.md"] }

/-- A merge commit (two parents) whose diff would touch a tracked path. -/
def exMerge : Commit :=
  { parentCount := 2, time := ⟨30, 0⟩, authorName := some "ada",
    authorEmail := some "ada@example.org", deltas := ["content/01.hello.md"] }

/-- A registry seeded with two document paths. -/
def exRegistry : BlogPosts := seed ["content/01.hello.md", "content/02.world.md"]

/-- A record whose path sorts first but that was touched last. -/
def cexPostA : BlogPost :=
  { path := "a", initial := some ⟨1, 0⟩, latest := some ⟨100, 0⟩,
    author := some (some "ada", some "ada@example.org") }

/-- A record whose path sorts last but that was touched first. -/
def cexPostB : BlogPost :=
  { path := "b", initial := some ⟨2, 0⟩, latest := some ⟨50, 0⟩,
    author := some (some "bob", some "bob@example.org") }

/-- A registry state in which path order and recency order disagree. -/
def cexRegistry : BlogPosts := [("a", cexPostA), ("b", cexPostB)]

/-- A fully initialized record with a well-formed `NN.slug.md` filename. -/
def exEntryPost : BlogPost :=
  { path := "content/01.hello.md", initial := some ⟨10, 0⟩, latest := some ⟨20, 60⟩,
    author := some (some "ada", some "ada@example.org") }

/-! ### Walker lemmas -/

theorem touchPost_idem (c : Commit) (p : BlogPost) :
    touchPost c (touchPost c p) = touchPost c p := by
  simp [touchPost]

theorem get_mut_applyDelta (c : Commit) (m : BlogPosts) (d path : String) :
    get_mut (applyDelta c m d) path =
      if path = d then (get_mut m path).map (touchPost c) else get_mut m path := by
  induction m with
  | nil => simp [applyDelta, get_mut]
  | cons kv rest ih =>
    obtain ⟨k, v⟩ := kv
    by_cases hkd : k = d <;> by_cases hkp : k = path
    · subst hkd; subst hkp
      simp [applyDelta, get_mut]
    · subst hkd
      simp only [applyDelta, if_pos rfl, get_mut, if_neg hkp, ih]
    · subst hkp
      simp [applyDelta, get_mut, hkd]
    · simp [applyDelta, get_mut, hkd, hkp, ih]

theorem get_mut_foldl_applyDelta (c : Commit) (ds : List String) (m : BlogPosts)
    (path : String) :
    get_mut (ds.foldl (applyDelta c) m) path =
      if path ∈ ds then (get_mut m path).map (touchPost c) else get_mut m path := by
  induction ds generalizing m with
  | nil => simp
  | cons d ds ih =>
    rw [List.foldl_cons, ih, get_mut_applyDelta]
    by_cases hd : path = d
    · subst hd
      by_cases hmem : path ∈ ds
      · simp only [hmem, if_true, List.mem_cons, true_or, if_pos rfl]
        cases get_mut m path <;> simp [touchPost_idem]
      · simp [hmem]
    · by_cases hmem : path ∈ ds <;> simp [hd, hmem]

theorem get_mut_processCommit (m : BlogPosts) (c : Commit) (path : String) :
    get_mut (processCommit m c) path =
      if qualifies path c then (get_mut m path).map (touchPost c) else get_mut m path := by
  unfold processCommit qualifies
  by_cases h : c.parentCount = 1
  · rw [if_pos h, get_mut_foldl_applyDelta]
    by_cases hm : path ∈ c.deltas <;> simp [h, hm]
  · rw [if_neg h]
    simp [h]

theorem get_mut_walk (cs : List Commit) (m : BlogPosts) (path : String) :
    get_mut (walk m cs) path =
      (get_mut m path).map (fun p => touchFold p (touching cs path)) := by
  induction cs generalizing m with
  | nil => cases h : get_mut m path <;> simp [walk, touching, touchFold, h]
  | cons c cs ih =>
    have hw : walk m (c :: cs) = walk (processCommit m c) cs := rfl
    rw [hw, ih, get_mut_processCommit]
    by_cases hq : qualifies path c
    · rw [if_pos hq]
      cases get_mut m path <;>
        simp [touching, List.filter_cons, hq, touchFold]
    · rw [if_neg hq]
      simp [touching, List.filter_cons, hq]

theorem touchFold_last (p : BlogPost) (l : List Commit) (c : Commit)
    (h : l.getLast? = some c) :
    (touchFold p l).latest = some c.time ∧
    (touchFold p l).author = some (c.authorName, c.authorEmail) := by
  induction l generalizing p with
  | nil => simp at h
  | cons d l ih =>
    cases l with
    | nil =>
      simp at h
      subst h
      simp [touchFold, touchPost]
    | cons e l' =>
      have h' : (e :: l').getLast? = some c := by
        simpa [List.getLast?] using h
      exact ih (touchPost d p) h'

theorem touchFold_initial_some (p : BlogPost) (l : List Commit) (t : Time)
    (h : p.initial = some t) : (touchFold p l).initial = some t := by
  induction l generalizing p with
  | nil => simpa [touchFold] using h
  | cons c l ih => exact ih (touchPost c p) (by simp [touchPost, h])

theorem touchFold_initial_none (p : BlogPost) (l : List Commit)
    (h : p.initial = none) :
    (touchFold p l).initial = l.head?.map (fun c => c.time) := by
  cases l with
  | nil => simpa [touchFold] using h
  | cons c l =>
    show (touchFold (touchPost c p) l).initial = some c.time
    exact touchFold_initial_some _ _ _ (by simp [touchPost, h])

/-! ### Registry lemmas -/

theorem mem_insert_uninit (m : BlogPosts) (path : String) (kv : String × BlogPost)
    (h : kv ∈ insert_uninit m path) :
    kv = (path, freshPost path) ∨ kv ∈ m := by
  induction m with
  | nil => simpa [insert_uninit] using h
  | cons hd rest ih =>
    obtain ⟨k, v⟩ := hd
    by_cases h1 : strLt path k = true
    · simp only [insert_uninit, if_pos h1] at h
      simpa using h
    · by_cases h2 : path = k
      · simp only [insert_uninit, if_neg h1, if_pos h2] at h
        rcases List.mem_cons.mp h with h3 | h3
        · exact Or.inl h3
        · exact Or.inr (List.mem_cons_of_mem _ h3)
      · simp only [insert_uninit, if_neg h1, if_neg h2] at h
        rcases List.mem_cons.mp h with h3 | h3
        · exact Or.inr (h3 ▸ List.mem_cons_self _ _)
        · rcases ih h3 with h4 | h4
          · exact Or.inl h4
          · exact Or.inr (List.mem_cons_of_mem _ h4)

theorem wf_freshPost (path : String) : (freshPost path).wf := by
  simp [freshPost, BlogPost.wf]

theorem wf_touchPost (c : Commit) (p : BlogPost) : (touchPost c p).wf := by
  simp [touchPost, BlogPost.wf]

theorem wf_applyDelta (c : Commit) (m : BlogPosts) (d : String)
    (h : ∀ kv ∈ m, kv.2.wf) : ∀ kv ∈ applyDelta c m d, kv.2.wf := by
  induction m with
  | nil => intro kv hkv; simp [applyDelta] at hkv
  | cons hd rest ih =>
    obtain ⟨k, v⟩ := hd
    have hrest : ∀ kv ∈ rest, kv.2.wf := fun kv hkv => h kv (List.mem_cons_of_mem _ hkv)
    intro kv hkv
    by_cases hk : k = d
    · simp only [applyDelta, if_pos hk] at hkv
      rcases List.mem_cons.mp hkv with h3 | h3
      · rw [h3]; exact wf_touchPost c v
      · exact ih hrest kv h3
    · simp only [applyDelta, if_neg hk] at hkv
      rcases List.mem_cons.mp hkv with h3 | h3
      · rw [h3]; exact h (k, v) (List.mem_cons_self _ _)
      · exact ih hrest kv h3

theorem wf_foldl_applyDelta (c : Commit) (ds : List String) (m : BlogPosts)
    (h : ∀ kv ∈ m, kv.2.wf) : ∀ kv ∈ ds.foldl (applyDelta c) m, kv.2.wf := by
  induction ds generalizing m with
  | nil => exact h
  | cons d ds ih => exact ih _ (wf_applyDelta c m d h)

theorem wf_processCommit (m : BlogPosts) (c : Commit)
    (h : ∀ kv ∈ m, kv.2.wf) : ∀ kv ∈ processCommit m c, kv.2.wf := by
  unfold processCommit
  by_cases h1 : c.parentCount = 1
  · rw [if_pos h1]; exact wf_foldl_applyDelta c c.deltas m h
  · rw [if_neg h1]; exact h

theorem wf_walk (cs : List Commit) (m : BlogPosts)
    (h : ∀ kv ∈ m, kv.2.wf) : ∀ kv ∈ walk m cs, kv.2.wf := by
  induction cs generalizing m with
  | nil => exact h
  | cons c cs ih => exact ih _ (wf_processCommit m c h)

theorem processCommit_skip (m : BlogPosts) (c : Commit) (h : c.parentCount ≠ 1) :
    processCommit m c = m := by
  simp [processCommit, h]

theorem walk_no_qualifying (cs : List Commit) (m : BlogPosts)
    (h : ∀ c ∈ cs, c.parentCount ≠ 1) : walk m cs = m := by
  induction cs generalizing m with
  | nil => rfl
  | cons c cs ih =>
    have hw : walk m (c :: cs) = walk (processCommit m c) cs := rfl
    rw [hw, processCommit_skip m c (h c (List.mem_cons_self _ _))]
    exact ih m (fun d hd => h d (List.mem_cons_of_mem _ hd))

theorem seed_fresh_aux (paths : List String) (acc : BlogPosts)
    (h : ∀ kv ∈ acc, kv.2 = freshPost kv.1) :
    ∀ kv ∈ paths.foldl insert_uninit acc, kv.2 = freshPost kv.1 := by
  induction paths generalizing acc with
  | nil => exact h
  | cons p ps ih =>
    refine ih _ ?_
    intro kv hkv
    rcases mem_insert_uninit acc p kv hkv with h1 | h1
    · rw [h1]
    · exact h kv h1

theorem seed_fresh (paths : List String) :
    ∀ kv ∈ seed paths, kv.2 = freshPost kv.1 :=
  seed_fresh_aux paths [] (by intro kv h; simp at h)

theorem mem_get_n_latest (m : BlogPosts) (n : Nat) (p : BlogPost)
    (h : p ∈ get_n_latest m n) : ∃ k, (k, p) ∈ m := by
  unfold get_n_latest at h
  rcases List.mem_map.mp h with ⟨kv, hkv, hp⟩
  exact ⟨kv.1, by
    have : kv ∈ m := List.mem_reverse.mp (List.mem_of_mem_take hkv)
    rw [← hp]
    simpa using this⟩

theorem mkEntry_author_none (oid content : String) (p : BlogPost)
    (h : p.author = none) : mkEntry oid content p = none := by
  simp [mkEntry, h]

theorem assembleEntries_head_none (oids contents : String → String) (p : BlogPost)
    (rest : List BlogPost) (h : mkEntry (oids p.path) (contents p.path) p = none) :
    assembleEntries oids contents (p :: rest) = none := by
  simp [assembleEntries, h]

theorem pairwise_le_getLast {α : Type} (R : α → α → Prop) (hrefl : ∀ a, R a a)
    {l : List α} {x : α} (hs : l.Pairwise R) (hl : l.getLast? = some x) :
    ∀ y ∈ l, R y x := by
  have hd : l.dropLast ++ [x] = l :=
    List.dropLast_append_getLast? x (Option.mem_def.mpr hl)
  intro y hy
  rw [← hd] at hy hs
  rcases List.mem_append.mp hy with h1 | h1
  · exact (List.pairwise_append.mp hs).2.2 y h1 x (List.mem_singleton.mpr rfl)
  · rw [List.mem_singleton.mp h1]
    exact hrefl x

theorem get_mut_insert_uninit_self (m : BlogPosts) (path : String) :
    get_mut (insert_uninit m path) path = some (freshPost path) := by
  induction m with
  | nil => simp [insert_uninit, get_mut]
  | cons kv rest ih =>
    obtain ⟨k, v⟩ := kv
    by_cases h1 : strLt path k = true
    · simp [insert_uninit, h1, get_mut]
    · by_cases h2 : path = k
      · subst h2
        simp [insert_uninit, h1, get_mut]
      · have hk : ¬ k = path := fun h => h2 h.symm
        simp [insert_uninit, h1, h2, get_mut, hk, ih]

theorem get_mut_insert_uninit_other (m : BlogPosts) (path q : String)
    (hq : q ≠ path) : get_mut (insert_uninit m path) q = get_mut m q := by
  have hpq : ¬ path = q := fun h => hq h.symm
  induction m with
  | nil => simp [insert_uninit, get_mut, hpq]
  | cons kv rest ih =>
    obtain ⟨k, v⟩ := kv
    by_cases h1 : strLt path k = true
    · simp [insert_uninit, h1, get_mut, hpq]
    · by_cases h2 : path = k
      · subst h2
        simp [insert_uninit, h1, get_mut, hpq]
      · simp [insert_uninit, h1, h2, get_mut, ih]

/-! ### The claims -/

/-- Claim C1, counterexample: in a registry where path order disagrees
with recency order, `get_n_latest 2` is not sorted descending by
`lastTouched` — it returns the records in descending path order, the
older-touched one first. -/
theorem C1_counterexample :
    ¬ specSortedByLatestDesc (get_n_latest cexRegistry 2) := by decide

/-- Claim C1, amended: for every registry state (keys sorted ascending,
records keyed by their own path) and every `n`, `get_n_latest n` returns
the last `min n size` records of the registry in descending *path* order
(reverse registry iteration order), regardless of `lastTouched`; its
length is at most `n`. -/
theorem C1_amended_selector_order (m : BlogPosts) (n : Nat)
    (hs : List.Pairwise (fun a b : String × BlogPost => strLt a.1 b.1 = true) m)
    (hcoh : ∀ kv ∈ m, kv.2.path = kv.1) :
    (get_n_latest m n).length = min n m.length ∧
    List.Pairwise (fun p q : BlogPost => strLt q.path p.path = true) (get_n_latest m n) ∧
    ∀ p ∈ get_n_latest m n, (p.path, p) ∈ m := by
  refine ⟨by simp [get_n_latest], ?_, ?_⟩
  · have h1 : List.Pairwise (fun a b : String × BlogPost => strLt b.1 a.1 = true) m.reverse :=
      List.pairwise_reverse.mpr hs
    have h2 : List.Pairwise (fun a b : String × BlogPost => strLt b.1 a.1 = true)
        (m.reverse.take n) := h1.sublist (List.take_sublist n m.reverse)
    unfold get_n_latest
    rw [List.pairwise_map]
    refine h2.imp_of_mem ?_
    intro a b ha hb hab
    have ha' : a ∈ m := List.mem_reverse.mp (List.mem_of_mem_take ha)
    have hb' : b ∈ m := List.mem_reverse.mp (List.mem_of_mem_take hb)
    rw [hcoh a ha', hcoh b hb']
    exact hab
  · intro p hp
    rcases mem_get_n_latest m n p hp with ⟨k, hk⟩
    have : p.path = k := hcoh (k, p) hk
    rw [this]
    exact hk

/-- Claim C1, witness for the amended theorem at a concrete sorted
registry. -/
theorem C1_amended_selector_order_witness :
    (List.Pairwise (fun a b : String × BlogPost => strLt a.1 b.1 = true) cexRegistry ∧
     ∀ kv ∈ cexRegistry, kv.2.path = kv.1) ∧
    ((get_n_latest cexRegistry 2).length = min 2 cexRegistry.length ∧
     List.Pairwise (fun p q : BlogPost => strLt q.path p.path = true)
       (get_n_latest cexRegistry 2) ∧
     ∀ p ∈ get_n_latest cexRegistry 2, (p.path, p) ∈ cexRegistry) :=
  ⟨⟨by decide, by decide⟩,
   C1_amended_selector_order cexRegistry 2 (by decide) (by decide)⟩

/-- Claim C2: for a document whose path is in the registry and that is
touched by at least two qualifying (single-parent) commits, after the walk
(commits visited in chronological order) its `latest` equals the time of
the chronologically last single-parent commit that modified it — the last
qualifying commit of the walk, maximal in commit time — and its `author`
equals that commit's (name, email) signature. -/
theorem C2_last_touch_attribution (cs : List Commit) (path : String)
    (m : BlogPosts) (p0 : BlogPost) (c' : Commit)
    (hsort : cs.Pairwise (fun a b => a.time.seconds ≤ b.time.seconds))
    (hm : get_mut m path = some p0)
    (hcount : 2 ≤ (touching cs path).length)
    (hlast : (touching cs path).getLast? = some c') :
    (∀ c ∈ touching cs path, c.time.seconds ≤ c'.time.seconds) ∧
    ∃ p, get_mut (walk m cs) path = some p ∧
      p.latest = some c'.time ∧
      p.author = some (c'.authorName, c'.authorEmail) := by
  constructor
  · have hsub : (touching cs path).Pairwise
        (fun a b => a.time.seconds ≤ b.time.seconds) :=
      hsort.sublist (List.filter_sublist cs)
    exact pairwise_le_getLast (fun a b => a.time.seconds ≤ b.time.seconds)
      (fun a => Int.le_refl a.time.seconds) hsub hlast
  · refine ⟨touchFold p0 (touching cs path), ?_, ?_, ?_⟩
    · rw [get_mut_walk, hm]
      rfl
    · exact (touchFold_last p0 _ c' hlast).1
    · exact (touchFold_last p0 _ c' hlast).2

/-- Claim C2, witness: two qualifying commits touch the first document;
its record ends carrying the second commit's time and author. -/
theorem C2_last_touch_attribution_witness :
    ([exCommitA, exCommitB].Pairwise (fun a b => a.time.seconds ≤ b.time.seconds) ∧
     get_mut exRegistry "content/01.hello.md" = some (freshPost "content/01.hello.md") ∧
     2 ≤ (touching [exCommitA, exCommitB] "content/01.hello.md").length ∧
     (touching [exCommitA, exCommitB] "content/01.hello.md").getLast? = some exCommitB) ∧
    ((∀ c ∈ touching [exCommitA, exCommitB] "content/01.hello.md",
        c.time.seconds ≤ exCommitB.time.seconds) ∧
     ∃ p, get_mut (walk exRegistry [exCommitA, exCommitB]) "content/01.hello.md" = some p ∧
       p.latest = some exCommitB.time ∧
       p.author = some (exCommitB.authorName, exCommitB.authorEmail)) :=
  ⟨⟨by decide, by decide, by decide, by decide⟩,
   C2_last_touch_attribution [exCommitA, exCommitB] "content/01.hello.md"
     exRegistry (freshPost "content/01.hello.md") exCommitB
     (by decide) (by decide) (by decide) (by decide)⟩

/-- Claim C3: starting from an unset record, after any walk prefix
`initial` equals the time of the first qualifying commit of that prefix
that modified the path (unset if there is none), and once `initial` holds
a value, walking any further commits never changes it. -/
theorem C3_first_touch_write_once (path : String) (m : BlogPosts) (p : BlogPost)
    (cs₁ cs₂ : List Commit)
    (hm : get_mut m path = some p) (hp : p.initial = none) :
    (∃ q, get_mut (walk m cs₁) path = some q ∧
       q.initial = ((touching cs₁ path).head?).map (fun c => c.time)) ∧
    (∀ t q, get_mut (walk m cs₁) path = some q → q.initial = some t →
       ∃ r, get_mut (walk (walk m cs₁) cs₂) path = some r ∧ r.initial = some t) := by
  constructor
  · refine ⟨touchFold p (touching cs₁ path), ?_, ?_⟩
    · rw [get_mut_walk, hm]
      rfl
    · exact touchFold_initial_none p _ hp
  · intro t q hq hqi
    refine ⟨touchFold q (touching cs₂ path), ?_, ?_⟩
    · rw [get_mut_walk, hq]
      rfl
    · exact touchFold_initial_some q _ t hqi

/-- Claim C3, witness: the first qualifying commit sets `initial`, and the
second commit leaves it unchanged. -/
theorem C3_first_touch_write_once_witness :
    (get_mut exRegistry "content/01.hello.md" = some (freshPost "content/01.hello.md") ∧
     (freshPost "content/01.hello.md").initial = none) ∧
    ((∃ q, get_mut (walk exRegistry [exCommitA]) "content/01.hello.md" = some q ∧
        q.initial = ((touching [exCommitA] "content/01.hello.md").head?).map
          (fun c => c.time)) ∧
     (∀ t q, get_mut (walk exRegistry [exCommitA]) "content/01.hello.md" = some q →
        q.initial = some t →
        ∃ r, get_mut (walk (walk exRegistry [exCommitA]) [exCommitB])
            "content/01.hello.md" = some r ∧ r.initial = some t)) :=
  ⟨⟨by decide, by decide⟩,
   C3_first_touch_write_once "content/01.hello.md" exRegistry
     (freshPost "content/01.hello.md") [exCommitA] [exCommitB]
     (by decide) (by decide)⟩

/-- Claim C4: processing a commit whose parent count is not exactly one
(a merge commit or the root commit) leaves the entire registry unchanged. -/
theorem C4_non_single_parent_skipped (m : BlogPosts) (c : Commit)
    (h : c.parentCount ≠ 1) : processCommit m c = m := by
  simp [processCommit, h]

/-- Claim C4, witness: a merge commit whose diff touches a tracked path
still changes nothing. -/
theorem C4_non_single_parent_skipped_witness :
    exMerge.parentCount ≠ 1 ∧ processCommit exRegistry exMerge = exRegistry :=
  ⟨by decide, C4_non_single_parent_skipped exRegistry exMerge (by decide)⟩

/-- Claim C5: on a registry whose records all satisfy the initialization
invariant (`latest` and `author` both unset or both set, and `initial` set
only if `latest` is), both seeding another path and walking any commit
sequence preserve the invariant for every record. -/
theorem C5_invariant_preserved (m : BlogPosts) (path : String) (cs : List Commit)
    (hwf : ∀ kv ∈ m, kv.2.wf) :
    (∀ kv ∈ insert_uninit m path, kv.2.wf) ∧ (∀ kv ∈ walk m cs, kv.2.wf) := by
  constructor
  · intro kv hkv
    rcases mem_insert_uninit m path kv hkv with h1 | h1
    · rw [h1]
      exact wf_freshPost path
    · exact hwf kv h1
  · exact wf_walk cs m hwf

/-- Claim C5, witness at a seeded registry, one more insertion and a
two-commit walk. -/
theorem C5_invariant_preserved_witness :
    (∀ kv ∈ exRegistry, kv.2.wf) ∧
    ((∀ kv ∈ insert_uninit exRegistry "content/03.extra.md", kv.2.wf) ∧
     (∀ kv ∈ walk exRegistry [exCommitA, exCommitB], kv.2.wf)) :=
  ⟨by decide,
   C5_invariant_preserved exRegistry "content/03.extra.md" [exCommitA, exCommitB]
     (by decide)⟩

/-- Claim C6, counterexample: a record present in the registry but never
touched by any qualifying commit is still returned by `get_n_latest` —
uninitialized records are not excluded. -/
theorem C6_counterexample :
    ¬ (∀ p ∈ get_n_latest (walk (seed ["content/01.hello.md"]) []) 1,
        p.latest.isSome) := by decide

/-- Claim C6, amended: `get_n_latest` performs no initialization
filtering: it returns exactly the last `min n size` registry records
(so its length is bounded by the registry size, not by the number of
initialized records), and every returned record is a registry member,
initialized or not. -/
theorem C6_amended_no_init_filtering (m : BlogPosts) (n : Nat) :
    (get_n_latest m n).length = min n m.length ∧
    ∀ p ∈ get_n_latest m n, ∃ k, (k, p) ∈ m := by
  refine ⟨by simp [get_n_latest], ?_⟩
  exact fun p hp => mem_get_n_latest m n p hp

/-- Claim C7: if the walk visits no qualifying (single-parent) commit,
every record of the seeded registry ends the walk uninitialized, and —
provided the selection is nonempty — building the feed entries fails
(returns no result) instead of emitting entries with empty authorship. -/
theorem C7_empty_history_fails_loudly (paths : List String) (cs : List Commit)
    (oids contents : String → String)
    (hq : ∀ c ∈ cs, c.parentCount ≠ 1)
    (hne : get_n_latest (walk (seed paths) cs) 20 ≠ []) :
    (∀ kv ∈ walk (seed paths) cs,
       kv.2.initial = none ∧ kv.2.latest = none ∧ kv.2.author = none) ∧
    assembleEntries oids contents (get_n_latest (walk (seed paths) cs) 20) = none := by
  have hwalk : walk (seed paths) cs = seed paths := walk_no_qualifying cs _ hq
  have hfresh : ∀ kv ∈ walk (seed paths) cs, kv.2 = freshPost kv.1 := by
    rw [hwalk]
    exact seed_fresh paths
  constructor
  · intro kv hkv
    rw [hfresh kv hkv]
    exact ⟨rfl, rfl, rfl⟩
  · cases hsel : get_n_latest (walk (seed paths) cs) 20 with
    | nil => exact absurd hsel hne
    | cons p rest =>
      have hp : p ∈ get_n_latest (walk (seed paths) cs) 20 := by
        rw [hsel]
        exact List.mem_cons_self _ _
      rcases mem_get_n_latest _ _ _ hp with ⟨k, hk⟩
      have hpf : p = freshPost k := hfresh (k, p) hk
      apply assembleEntries_head_none
      apply mkEntry_author_none
      rw [hpf]
      rfl

/-- Claim C7, witness: a seeded one-document registry walked over an
empty commit list yields an uninitialized selection whose assembly fails. -/
theorem C7_empty_history_fails_loudly_witness :
    ((∀ c ∈ ([] : List Commit), c.parentCount ≠ 1) ∧
     get_n_latest (walk (seed ["content/01.hello.md"]) []) 20 ≠ []) ∧
    ((∀ kv ∈ walk (seed ["content/01.hello.md"]) [],
        kv.2.initial = none ∧ kv.2.latest = none ∧ kv.2.author = none) ∧
     assembleEntries (fun _ => "oid") (fun _ => "body")
       (get_n_latest (walk (seed ["content/01.hello.md"]) []) 20) = none) :=
  ⟨⟨by decide, by decide⟩,
   C7_empty_history_fails_loudly ["content/01.hello.md"] []
     (fun _ => "oid") (fun _ => "body") (by decide) (by decide)⟩

/-- Claim C8: a delta whose new-side path is not a key of the registry
leaves the registry entirely unchanged. -/
theorem C8_untracked_path_frame (c : Commit) (m : BlogPosts) (path : String)
    (h : get_mut m path = none) : applyDelta c m path = m := by
  induction m with
  | nil => rfl
  | cons kv rest ih =>
    obtain ⟨k, v⟩ := kv
    by_cases hk : k = path
    · rw [get_mut, if_pos hk] at h
      exact absurd h (by simp)
    · rw [get_mut, if_neg hk] at h
      show (if k = path then (k, touchPost c v) :: applyDelta c rest path
            else (k, v) :: applyDelta c rest path) = (k, v) :: rest
      rw [if_neg hk, ih h]

/-- Claim C8, witness: a delta on `README.md`, which is not seeded,
changes nothing. -/
theorem C8_untracked_path_frame_witness :
    get_mut exRegistry "README.md" = none ∧
    applyDelta exCommitB exRegistry "README.md" = exRegistry :=
  ⟨by decide, C8_untracked_path_frame exCommitB exRegistry "README.md" (by decide)⟩

/-- Claim C9: for a fully initialized selected record, if the filename
stem has fewer than two dot-separated components, entry construction
fails (the panicking `[1]` index is a data error aborting the run); if it
has at least two, entry construction succeeds and the title is the
stem's second dot-separated component — the indexing stays in bounds. -/
theorem C9_title_extraction (oid content : String) (p : BlogPost)
    (a : Option String × Option String) (name email : String) (t pub : Time)
    (ha : p.author = some a) (hn : a.1 = some name) (he : a.2 = some email)
    (ht : p.latest = some t) (hpub : p.initial = some pub) :
    ((titleComponents p.path).length < 2 → mkEntry oid content p = none) ∧
    (2 ≤ (titleComponents p.path).length →
      ∃ e, mkEntry oid content p = some e ∧
        (titleComponents p.path)[1]? = some e.title) := by
  constructor
  · intro hlen
    have hnone : (titleComponents p.path)[1]? = none :=
      List.getElem?_eq_none (by omega)
    simp [mkEntry, ha, hn, he, ht, hpub, hnone]
  · intro hlen
    cases htitle : (titleComponents p.path)[1]? with
    | none =>
      have := List.getElem?_eq_none_iff.mp htitle
      omega
    | some title =>
      have hEntry : mkEntry oid content p = some
          { id := "https://sp1rit.ml/read/" ++ oid
          , title := title
          , updated := t
          , authorName := name
          , authorEmail := email
          , content := content
          , link := "https://sp1rit.ml/read/" ++ oid
          , published := pub } := by
        simp [mkEntry, ha, hn, he, ht, hpub, htitle]
      exact ⟨_, hEntry, by simp [htitle]⟩

/-- Claim C9, witness: `content/01.hello.md` has stem `01.hello`, two
components, and yields the title `hello`. -/
theorem C9_title_extraction_witness :
    (exEntryPost.author = some (some "ada", some "ada@example.org") ∧
     (some "ada", some ("ada@example.org" : String)).1 = some "ada" ∧
     (some ("ada" : String), some "ada@example.org").2 = some "ada@example.org" ∧
     exEntryPost.latest = some ⟨20, 60⟩ ∧
     exEntryPost.initial = some ⟨10, 0⟩) ∧
    (((titleComponents exEntryPost.path).length < 2 →
        mkEntry "oid" "body" exEntryPost = none) ∧
     (2 ≤ (titleComponents exEntryPost.path).length →
        ∃ e, mkEntry "oid" "body" exEntryPost = some e ∧
          (titleComponents exEntryPost.path)[1]? = some e.title)) :=
  ⟨⟨by decide, by decide, by decide, by decide, by decide⟩,
   C9_title_extraction "oid" "body" exEntryPost
     (some "ada", some "ada@example.org") "ada" "ada@example.org" ⟨20, 60⟩ ⟨10, 0⟩
     (by decide) (by decide) (by decide) (by decide) (by decide)⟩

/-- Claim C10: calling `insert_uninit` again for a path already present
does not fail: it replaces the record under that path with a fresh
uninitialized one, erasing prior touch data, and leaves every other key's
record unchanged. -/
theorem C10_reinsert_replaces (m : BlogPosts) (path : String)
    (h : (get_mut m path).isSome) :
    get_mut (insert_uninit m path) path = some (freshPost path) ∧
    ∀ q, q ≠ path → get_mut (insert_uninit m path) q = get_mut m q :=
  ⟨get_mut_insert_uninit_self m path,
   fun q hq => get_mut_insert_uninit_other m path q hq⟩

/-- Claim C10, witness: re-inserting the path of an already-touched
record resets it to the fresh uninitialized record. -/
theorem C10_reinsert_replaces_witness :
    (get_mut cexRegistry "a").isSome ∧
    (get_mut (insert_uninit cexRegistry "a") "a" = some (freshPost "a") ∧
     ∀ q, q ≠ "a" → get_mut (insert_uninit cexRegistry "a") q = get_mut cexRegistry q) :=
  ⟨by decide, C10_reinsert_replaces cexRegistry "a" (by decide)⟩

end Gitfeet
